import Mathlib

set_option maxHeartbeats 1000000
set_option maxRecDepth 8000

/-! Shallow embedding of the halo2 two-column lookup-table chip defined in
`src/table.rs`, together with a model of the framework interfaces the chip
drives (constraint-system builder, layouter table assigner, region).
Machine bytes are `Fin 256`; field elements are canonical residues modulo
the field characteristic `p`, since the chip only uses `F::from` on byte
values and equality of field elements. -/

namespace LookupChip

/-- A byte, the domain of both table columns. -/
abbrev U8 := Fin 256

/-- A field element, represented by its canonical residue modulo the field
characteristic `p` (threaded explicitly through the definitions). -/
abbrev Fp := Nat

/-- Embedding of `F::from(v as u64)`: the natural unsigned-integer-to-field
cast, i.e. reduction modulo the characteristic. -/
def fFrom (p : Nat) (v : Nat) : Fp := v % p

/-- Handle to an advice (witness) column, as handed out by the builder. -/
structure AdviceColumn where
  index : Nat
deriving DecidableEq

/-- Handle to a fixed lookup-table column (halo2 `TableColumn`). -/
structure TableColumn where
  index : Nat
deriving DecidableEq

/-- Embedding of `Rotation::cur()`: offset 0 from the evaluation row. -/
def rotationCur : Int := 0

/-- Expressions the chip builds: advice-column queries at a rotation
(`meta.query_advice(col, Rotation::cur())`). -/
inductive Expression where
  | adviceQuery (col : AdviceColumn) (rot : Int)
deriving DecidableEq

/-- Modelled framework state (spec §6): the constraint-system builder, with
the counter of allocated fixed-table columns and the registered lookup
arguments, each a list of `(expression, table column)` pairs. -/
structure ConstraintSystem where
  numTableColumns : Nat
  lookups : List (List (Expression × TableColumn))
deriving DecidableEq

/-- Builder operation `meta.lookup_table_column()`: allocate a fresh fixed
table column handle. -/
def ConstraintSystem.lookup_table_column (cs : ConstraintSystem) :
    TableColumn × ConstraintSystem :=
  (⟨cs.numTableColumns⟩, { cs with numTableColumns := cs.numTableColumns + 1 })

/-- Builder operation `meta.query_advice(col, rot)`. -/
def ConstraintSystem.query_advice (col : AdviceColumn) (rot : Int) : Expression :=
  .adviceQuery col rot

/-- Builder operation `meta.lookup(...)`: register one lookup argument. -/
def ConstraintSystem.lookup (cs : ConstraintSystem)
    (arg : List (Expression × TableColumn)) : ConstraintSystem :=
  { cs with lookups := cs.lookups ++ [arg] }

/-- One canonical `(x, y)` pair stored in the fixed table (`TableRow`). -/
structure TableRow where
  x : U8
  y : U8
deriving DecidableEq

/-- Constructor `TableRow::new`. -/
def TableRow.new (x y : U8) : TableRow := ⟨x, y⟩

/-- One witnessed pair to be looked up (`InputRow`): optional bytes, `none`
being the unknown marker of key-generation time. -/
structure InputRow where
  x : Option U8
  y : Option U8
deriving DecidableEq

/-- Handles to the two advice columns owned by the surrounding circuit. -/
structure Inputs where
  x : AdviceColumn
  y : AdviceColumn
deriving DecidableEq

/-- Handles to the two fixed table columns owned by the chip. -/
structure Table where
  x : TableColumn
  y : TableColumn
deriving DecidableEq

/-- The chip's complete configuration: all four column handles. -/
structure TableConfig where
  input : Inputs
  table : Table
deriving DecidableEq

/-- The chip: a binding of a configuration (the `PhantomData` field marks
the scalar field and carries no data). -/
structure TableChip where
  config : TableConfig
deriving DecidableEq

/-- The halo2 `Error` type, restricted to the one variant the chip
constructs (`Error::Synthesis`). -/
inductive Error where
  | Synthesis
deriving DecidableEq

/-- Synthesis mode of the framework driver: key generation has no witness
values, proving does. -/
inductive Mode where
  | keygen
  | proving
deriving DecidableEq

/-- A region's advice-assignment log: column, row, value; `none` records a
cell whose value is the unknown marker (key-generation time). -/
abbrev AdviceLog := List (AdviceColumn × Nat × Option Fp)

/-- The table assigner's log of fixed-table cell assignments. -/
abbrev TableLog := List (TableColumn × Nat × Fp)

/-- Modelled framework interface (spec §6): `Region::assign_advice`. During
key generation the value thunk is not consulted and the cell is recorded
with the unknown marker; during proving an error from the thunk is
surfaced, and on success the concrete value is appended to the log. -/
def Region.assign_advice (mode : Mode) (log : AdviceLog) (col : AdviceColumn)
    (row : Nat) (val : Except Error Fp) : Except Error AdviceLog :=
  match mode with
  | .keygen => .ok (log ++ [(col, row, none)])
  | .proving =>
    match val with
    | .error e => .error e
    | .ok v => .ok (log ++ [(col, row, some v)])

/-- Embedding of `TableChip::configure`: allocate the two fixed table
columns, register the single lookup argument coupling the advice columns
at the current rotation to them, and return the aggregated config. -/
def TableChip.configure (cs : ConstraintSystem)
    (input_x input_y : AdviceColumn) : TableConfig × ConstraintSystem :=
  let tx := cs.lookup_table_column
  let table_x := tx.1
  let cs1 := tx.2
  let ty := cs1.lookup_table_column
  let table_y := ty.1
  let cs2 := ty.2
  let x_cur := ConstraintSystem.query_advice input_x rotationCur
  let y_cur := ConstraintSystem.query_advice input_y rotationCur
  let cs3 := cs2.lookup [(x_cur, table_x), (y_cur, table_y)]
  ({ input := { x := input_x, y := input_y },
     table := { x := table_x, y := table_y } }, cs3)

/-- Embedding of `TableChip::construct`. -/
def TableChip.construct (config : TableConfig) : TableChip := ⟨config⟩

/-- Body of the closure `load` passes to `assign_table`: iterate the zipped
byte vectors (`xs.iter().zip(ys.iter())`), assigning each pair into the
two table columns at consecutive row offsets starting from 0. The
cell-value thunks in the source are always `Ok(..)`, so each `assign_cell`
appends its entry and the loop cannot fail. -/
def loadRows (p : Nat) (config : TableConfig) (rowOffset : Nat) :
    List (U8 × U8) → TableLog
  | [] => []
  | (x, y) :: rest =>
    (config.table.x, rowOffset, fFrom p x.val) ::
    (config.table.y, rowOffset, fFrom p y.val) ::
    loadRows p config (rowOffset + 1) rest

/-- Embedding of `TableChip::load`: run the table-assignment closure via the
layouter and return the resulting table log. -/
def TableChip.load (p : Nat) (config : TableConfig) (xs ys : List U8) :
    Except Error TableLog :=
  .ok (loadRows p config 0 (xs.zip ys))

/-- Rust `Option::ok_or`. -/
def okOr (o : Option Fp) (e : Error) : Except Error Fp :=
  match o with
  | some v => .ok v
  | none => .error e

/-- The value thunk `add_row` passes for one optional byte:
`v.map(|v| F::from(v as u64)).ok_or(Error::Synthesis)`. -/
def byteValue (p : Nat) (v : Option U8) : Except Error Fp :=
  okOr (v.map fun b => fFrom p b.val) Error.Synthesis

/-- Embedding of `TableChip::add_row`: assign the two optional bytes into
the advice cells `(input.x, row)` and `(input.y, row)`. The region is
threaded as the advice log; an error from the first assignment
early-returns (the `?` operator), leaving the region as it was. -/
def TableChip.add_row (p : Nat) (chip : TableChip) (mode : Mode)
    (log : AdviceLog) (row : Nat) (x y : Option U8) :
    AdviceLog × Except Error Unit :=
  let config := chip.config
  match Region.assign_advice mode log config.input.x row (byteValue p x) with
  | .error e => (log, .error e)
  | .ok log1 =>
    match Region.assign_advice mode log1 config.input.y row (byteValue p y) with
    | .error e => (log1, .error e)
    | .ok log2 => (log2, .ok ())

/-- Value stored at a cell of an advice log: the latest assignment of the
cell wins, matching mutation of the region in place; `none` when the cell
was never assigned. -/
def cellVal : AdviceLog → AdviceColumn → Nat → Option (Option Fp)
  | [], _, _ => none
  | (c, r, v) :: rest, col, row =>
    match cellVal rest col row with
    | some w => some w
    | none => if c = col ∧ r = row then some v else none

/-- Value stored at a cell of a table log; the latest assignment wins. -/
def tableVal : TableLog → TableColumn → Nat → Option Fp
  | [], _, _ => none
  | (c, r, v) :: rest, col, row =>
    match tableVal rest col row with
    | some w => some w
    | none => if c = col ∧ r = row then some v else none

/-- Evaluation of a chip expression over an advice log at a given row. -/
def evalExprAt (alog : AdviceLog) (row : Nat) : Expression → Option (Option Fp)
  | .adviceQuery col rot => cellVal alog col (Int.toNat (Int.ofNat row + rot))

/-- Modelled from the spec (§6): one registered lookup argument is satisfied
at advice row `row` by table row `tr` when every `(expression, table
column)` pair of the argument evaluates, on the advice side, to the
concrete value the table column holds at `tr`. -/
def lookupRowHolds (tlog : TableLog) (alog : AdviceLog)
    (lu : List (Expression × TableColumn)) (row tr : Nat) : Prop :=
  ∀ pr ∈ lu, (tableVal tlog pr.2 tr).isSome = true ∧
    evalExprAt alog row pr.1 = some (tableVal tlog pr.2 tr)

instance (tlog : TableLog) (alog : AdviceLog)
    (lu : List (Expression × TableColumn)) (row tr : Nat) :
    Decidable (lookupRowHolds tlog alog lu row tr) := by
  unfold lookupRowHolds; infer_instance

/-- Modelled from the spec (§6, §8): the mock verification of the lookup
constraints — every registered lookup argument must hold at every used
advice row, witnessed by some table row below `tRows`. -/
def mockVerify (cs : ConstraintSystem) (tlog : TableLog) (alog : AdviceLog)
    (usedRows tRows : Nat) : Prop :=
  ∀ lu ∈ cs.lookups, ∀ row < usedRows, ∃ tr < tRows,
    lookupRowHolds tlog alog lu row tr

instance (cs : ConstraintSystem) (tlog : TableLog) (alog : AdviceLog)
    (usedRows tRows : Nat) : Decidable (mockVerify cs tlog alog usedRows tRows) := by
  unfold mockVerify; infer_instance

/-- The advice entries produced by assigning the concrete witness pairs at
consecutive rows starting at `row` (the delta `assignRowsFrom` appends). -/
def wLog (p : Nat) (cfg : TableConfig) (row : Nat) :
    List (U8 × U8) → AdviceLog
  | [] => []
  | (x, y) :: rest =>
    (cfg.input.x, row, some (fFrom p x.val)) ::
    (cfg.input.y, row, some (fFrom p y.val)) ::
    wLog p cfg (row + 1) rest

/-- Driver mirroring the test circuit's region closure: call `add_row` once
per concrete witness pair, at consecutive rows starting at `row`,
stopping at the first error. -/
def assignRowsFrom (p : Nat) (chip : TableChip) (log : AdviceLog) (row : Nat) :
    List (U8 × U8) → AdviceLog × Except Error Unit
  | [] => (log, .ok ())
  | (x, y) :: rest =>
    match TableChip.add_row p chip .proving log row (some x) (some y) with
    | (log1, .ok _) => assignRowsFrom p chip log1 (row + 1) rest
    | (log1, .error e) => (log1, .error e)

/-- The test circuit's configure step: a fresh builder and the two advice
columns it allocates first (indices 0 and 1). -/
def circuitSetup : TableConfig × ConstraintSystem :=
  TableChip.configure ⟨0, []⟩ ⟨0⟩ ⟨1⟩

/-- The configuration of the test circuit. -/
def circuitConfig : TableConfig := circuitSetup.1

/-- The constraint system of the test circuit after configure. -/
def circuitCS : ConstraintSystem := circuitSetup.2

/-- The fixed-table log the test circuit's load step produces. -/
def circuitTableLog (p : Nat) (xs ys : List U8) : TableLog :=
  match TableChip.load p circuitConfig xs ys with
  | .ok l => l
  | .error _ => []

/-- The advice log and outcome of witnessing the pairs `W` at rows
`0, 1, ...` during proving, as the test circuit's region does. -/
def circuitAdvice (p : Nat) (W : List (U8 × U8)) :
    AdviceLog × Except Error Unit :=
  assignRowsFrom p (TableChip.construct circuitConfig) [] 0 W

/-- Canonical description of the table-assignment sequence `load` performs:
pair `i` of the zipped inputs yields the two assignments at row offset
`i`, in order — first the `x` column, then the `y` column. -/
def canonicalLoadLog (p : Nat) (config : TableConfig) (xs ys : List U8) :
    TableLog :=
  ((xs.zip ys).enum).flatMap fun iv =>
    [(config.table.x, iv.1, fFrom p iv.2.1.val),
     (config.table.y, iv.1, fFrom p iv.2.2.val)]

theorem loadRows_length (p : Nat) (cfg : TableConfig) :
    ∀ (l : List (U8 × U8)) (k : Nat),
      (loadRows p cfg k l).length = 2 * l.length := by
  intro l
  induction l with
  | nil => intro k; rfl
  | cons hd tl ih =>
    intro k
    obtain ⟨a, b⟩ := hd
    simp only [loadRows, List.length_cons, ih (k + 1)]
    omega

theorem loadRows_eq_enumFrom (p : Nat) (cfg : TableConfig) :
    ∀ (l : List (U8 × U8)) (k : Nat),
      loadRows p cfg k l = (l.enumFrom k).flatMap fun iv =>
        [(cfg.table.x, iv.1, fFrom p iv.2.1.val),
         (cfg.table.y, iv.1, fFrom p iv.2.2.val)] := by
  intro l
  induction l with
  | nil => intro k; rfl
  | cons hd tl ih =>
    intro k
    obtain ⟨a, b⟩ := hd
    simp [loadRows, List.enumFrom, ih (k + 1)]

theorem mem_loadRows (p : Nat) (cfg : TableConfig) :
    ∀ (l : List (U8 × U8)) (k : Nat) (e : TableColumn × Nat × Fp),
      e ∈ loadRows p cfg k l ↔
        ∃ i, ∃ h : i < l.length,
          (e = (cfg.table.x, k + i, fFrom p (l.get ⟨i, h⟩).1.val) ∨
           e = (cfg.table.y, k + i, fFrom p (l.get ⟨i, h⟩).2.val)) := by
  intro l
  induction l with
  | nil => intro k e; simp [loadRows]
  | cons hd tl ih =>
    intro k e
    obtain ⟨a, b⟩ := hd
    constructor
    · intro he
      simp only [loadRows, List.mem_cons] at he
      rcases he with h1 | h2 | h3
      · exact ⟨0, by simp, Or.inl (by simpa using h1)⟩
      · exact ⟨0, by simp, Or.inr (by simpa using h2)⟩
      · rcases (ih (k + 1) e).mp h3 with ⟨i, hi, hcase⟩
        refine ⟨i + 1, by simpa using Nat.succ_lt_succ hi, ?_⟩
        have hk : k + (i + 1) = (k + 1) + i := by omega
        rw [hk]
        exact hcase
    · rintro ⟨i, hi, hcase⟩
      match i, hi, hcase with
      | 0, hi, hcase =>
        simp only [loadRows, List.mem_cons]
        rcases hcase with h | h
        · exact Or.inl (by simpa using h)
        · exact Or.inr (Or.inl (by simpa using h))
      | j + 1, hi, hcase =>
        simp only [loadRows, List.mem_cons]
        refine Or.inr (Or.inr ?_)
        refine (ih (k + 1) e).mpr ⟨j, Nat.lt_of_succ_lt_succ (by simpa using hi), ?_⟩
        have hk : (k + 1) + j = k + (j + 1) := by omega
        rw [hk]
        exact hcase

theorem tableVal_loadRows_lt (p : Nat) (cfg : TableConfig) (col : TableColumn) :
    ∀ (l : List (U8 × U8)) (k row : Nat), row < k →
      tableVal (loadRows p cfg k l) col row = none := by
  intro l
  induction l with
  | nil => intro k row h; rfl
  | cons hd tl ih =>
    intro k row h
    obtain ⟨a, b⟩ := hd
    have hne : k ≠ row := by omega
    simp [loadRows, tableVal, ih (k + 1) row (by omega), hne]

theorem tableVal_loadRows_x (p : Nat) (cfg : TableConfig)
    (hne : cfg.table.x ≠ cfg.table.y) :
    ∀ (l : List (U8 × U8)) (k j : Nat) (h : j < l.length),
      tableVal (loadRows p cfg k l) cfg.table.x (k + j) =
        some (fFrom p (l.get ⟨j, h⟩).1.val) := by
  intro l
  induction l with
  | nil => intro k j h; exact absurd h (by simp)
  | cons hd tl ih =>
    intro k j h
    obtain ⟨a, b⟩ := hd
    match j with
    | 0 =>
      have h0 : tableVal (loadRows p cfg (k + 1) tl) cfg.table.x k = none :=
        tableVal_loadRows_lt p cfg _ tl (k + 1) k (by omega)
      simp [loadRows, tableVal, h0, Ne.symm hne]
    | j' + 1 =>
      have h' : j' < tl.length := Nat.lt_of_succ_lt_succ (by simpa using h)
      have hrec := ih (k + 1) j' h'
      have hk : k + (j' + 1) = (k + 1) + j' := by omega
      rw [hk]
      simp [loadRows, tableVal, hrec]

theorem tableVal_loadRows_y (p : Nat) (cfg : TableConfig) :
    ∀ (l : List (U8 × U8)) (k j : Nat) (h : j < l.length),
      tableVal (loadRows p cfg k l) cfg.table.y (k + j) =
        some (fFrom p (l.get ⟨j, h⟩).2.val) := by
  intro l
  induction l with
  | nil => intro k j h; exact absurd h (by simp)
  | cons hd tl ih =>
    intro k j h
    obtain ⟨a, b⟩ := hd
    match j with
    | 0 =>
      have h0 : tableVal (loadRows p cfg (k + 1) tl) cfg.table.y k = none :=
        tableVal_loadRows_lt p cfg _ tl (k + 1) k (by omega)
      simp [loadRows, tableVal, h0]
    | j' + 1 =>
      have h' : j' < tl.length := Nat.lt_of_succ_lt_succ (by simpa using h)
      have hrec := ih (k + 1) j' h'
      have hk : k + (j' + 1) = (k + 1) + j' := by omega
      rw [hk]
      simp [loadRows, tableVal, hrec]

theorem cellVal_wLog_lt (p : Nat) (cfg : TableConfig) (col : AdviceColumn) :
    ∀ (l : List (U8 × U8)) (k row : Nat), row < k →
      cellVal (wLog p cfg k l) col row = none := by
  intro l
  induction l with
  | nil => intro k row h; rfl
  | cons hd tl ih =>
    intro k row h
    obtain ⟨a, b⟩ := hd
    have hne : k ≠ row := by omega
    simp [wLog, cellVal, ih (k + 1) row (by omega), hne]

theorem cellVal_wLog_x (p : Nat) (cfg : TableConfig)
    (hne : cfg.input.x ≠ cfg.input.y) :
    ∀ (l : List (U8 × U8)) (k j : Nat) (h : j < l.length),
      cellVal (wLog p cfg k l) cfg.input.x (k + j) =
        some (some (fFrom p (l.get ⟨j, h⟩).1.val)) := by
  intro l
  induction l with
  | nil => intro k j h; exact absurd h (by simp)
  | cons hd tl ih =>
    intro k j h
    obtain ⟨a, b⟩ := hd
    match j with
    | 0 =>
      have h0 : cellVal (wLog p cfg (k + 1) tl) cfg.input.x k = none :=
        cellVal_wLog_lt p cfg _ tl (k + 1) k (by omega)
      simp [wLog, cellVal, h0, Ne.symm hne]
    | j' + 1 =>
      have h' : j' < tl.length := Nat.lt_of_succ_lt_succ (by simpa using h)
      have hrec := ih (k + 1) j' h'
      have hk : k + (j' + 1) = (k + 1) + j' := by omega
      rw [hk]
      simp [wLog, cellVal, hrec]

theorem cellVal_wLog_y (p : Nat) (cfg : TableConfig) :
    ∀ (l : List (U8 × U8)) (k j : Nat) (h : j < l.length),
      cellVal (wLog p cfg k l) cfg.input.y (k + j) =
        some (some (fFrom p (l.get ⟨j, h⟩).2.val)) := by
  intro l
  induction l with
  | nil => intro k j h; exact absurd h (by simp)
  | cons hd tl ih =>
    intro k j h
    obtain ⟨a, b⟩ := hd
    match j with
    | 0 =>
      have h0 : cellVal (wLog p cfg (k + 1) tl) cfg.input.y k = none :=
        cellVal_wLog_lt p cfg _ tl (k + 1) k (by omega)
      simp [wLog, cellVal, h0]
    | j' + 1 =>
      have h' : j' < tl.length := Nat.lt_of_succ_lt_succ (by simpa using h)
      have hrec := ih (k + 1) j' h'
      have hk : k + (j' + 1) = (k + 1) + j' := by omega
      rw [hk]
      simp [wLog, cellVal, hrec]

theorem add_row_some_eq (p : Nat) (chip : TableChip) (log : AdviceLog)
    (row : Nat) (x y : U8) :
    TableChip.add_row p chip .proving log row (some x) (some y) =
      ((log ++ [(chip.config.input.x, row, some (fFrom p x.val))]) ++
        [(chip.config.input.y, row, some (fFrom p y.val))], .ok ()) := rfl

theorem assignRowsFrom_eq (p : Nat) (chip : TableChip) :
    ∀ (W : List (U8 × U8)) (log : AdviceLog) (row : Nat),
      assignRowsFrom p chip log row W =
        (log ++ wLog p chip.config row W, .ok ()) := by
  intro W
  induction W with
  | nil => intro log row; simp [assignRowsFrom, wLog]
  | cons hd tl ih =>
    intro log row
    obtain ⟨a, b⟩ := hd
    simp [assignRowsFrom, add_row_some_eq, ih, wLog, List.append_assoc]

theorem cellVal_append_one (c : AdviceColumn) (r : Nat) (v : Option Fp)
    (col : AdviceColumn) (row : Nat) (h : ¬(c = col ∧ r = row)) :
    ∀ log : AdviceLog,
      cellVal (log ++ [(c, r, v)]) col row = cellVal log col row := by
  intro log
  induction log with
  | nil => simp [cellVal, h]
  | cons e rest ih =>
    obtain ⟨c0, r0, v0⟩ := e
    simp [cellVal, ih]

theorem fFrom_inj (p : Nat) (hp : 255 < p) (a b : U8)
    (h : fFrom p a.val = fFrom p b.val) : a = b := by
  have ha : a.val < p := by have := a.isLt; omega
  have hb : b.val < p := by have := b.isLt; omega
  apply Fin.ext
  simpa [fFrom, Nat.mod_eq_of_lt ha, Nat.mod_eq_of_lt hb] using h

theorem evalExprAt_cur (alog : AdviceLog) (col : AdviceColumn) (row : Nat) :
    evalExprAt alog row (.adviceQuery col rotationCur) = cellVal alog col row := by
  simp [evalExprAt, rotationCur]

theorem mockVerify_circuit_iff (p : Nat) (hp : 255 < p) (W T : List (U8 × U8)) :
    mockVerify circuitCS (loadRows p circuitConfig 0 T) (wLog p circuitConfig 0 W)
      W.length T.length ↔ ∀ w ∈ W, w ∈ T := by
  have htne : circuitConfig.table.x ≠ circuitConfig.table.y := by decide
  have hxne : circuitConfig.input.x ≠ circuitConfig.input.y := by decide
  have key : ∀ (row tr : Nat) (hr : row < W.length) (ht : tr < T.length),
      (lookupRowHolds (loadRows p circuitConfig 0 T) (wLog p circuitConfig 0 W)
        [(Expression.adviceQuery circuitConfig.input.x rotationCur, circuitConfig.table.x),
         (Expression.adviceQuery circuitConfig.input.y rotationCur, circuitConfig.table.y)]
        row tr) ↔ W.get ⟨row, hr⟩ = T.get ⟨tr, ht⟩ := by
    intro row tr hr ht
    have h1 : tableVal (loadRows p circuitConfig 0 T) circuitConfig.table.x tr =
        some (fFrom p (T.get ⟨tr, ht⟩).1.val) := by
      simpa using tableVal_loadRows_x p circuitConfig htne T 0 tr ht
    have h2 : tableVal (loadRows p circuitConfig 0 T) circuitConfig.table.y tr =
        some (fFrom p (T.get ⟨tr, ht⟩).2.val) := by
      simpa using tableVal_loadRows_y p circuitConfig T 0 tr ht
    have h3 : cellVal (wLog p circuitConfig 0 W) circuitConfig.input.x row =
        some (some (fFrom p (W.get ⟨row, hr⟩).1.val)) := by
      simpa using cellVal_wLog_x p circuitConfig hxne W 0 row hr
    have h4 : cellVal (wLog p circuitConfig 0 W) circuitConfig.input.y row =
        some (some (fFrom p (W.get ⟨row, hr⟩).2.val)) := by
      simpa using cellVal_wLog_y p circuitConfig W 0 row hr
    constructor
    · intro hl
      have e1 := hl (Expression.adviceQuery circuitConfig.input.x rotationCur,
        circuitConfig.table.x) (by simp)
      have e2 := hl (Expression.adviceQuery circuitConfig.input.y rotationCur,
        circuitConfig.table.y) (by simp)
      rw [show ((Expression.adviceQuery circuitConfig.input.x rotationCur,
        circuitConfig.table.x) : Expression × TableColumn).1 =
          Expression.adviceQuery circuitConfig.input.x rotationCur from rfl] at e1
      simp only [evalExprAt_cur, h1, h3] at e1
      simp only [evalExprAt_cur, h2, h4] at e2
      have fx : (W.get ⟨row, hr⟩).1 = (T.get ⟨tr, ht⟩).1 :=
        fFrom_inj p hp _ _ (by simpa using e1.2)
      have fy : (W.get ⟨row, hr⟩).2 = (T.get ⟨tr, ht⟩).2 :=
        fFrom_inj p hp _ _ (by simpa using e2.2)
      exact Prod.ext_iff.mpr ⟨fx, fy⟩
    · intro heq pr hpr
      simp only [List.mem_cons, List.not_mem_nil, or_false] at hpr
      rcases hpr with h | h
      · subst h
        refine ⟨by simp [h1], ?_⟩
        simp only [evalExprAt_cur, h1, h3, heq]
      · subst h
        refine ⟨by simp [h2], ?_⟩
        simp only [evalExprAt_cur, h2, h4, heq]
  have hlk : circuitCS.lookups =
      [[(Expression.adviceQuery circuitConfig.input.x rotationCur, circuitConfig.table.x),
        (Expression.adviceQuery circuitConfig.input.y rotationCur, circuitConfig.table.y)]] :=
    rfl
  constructor
  · intro hv w hw
    obtain ⟨⟨row, hr⟩, rfl⟩ := List.mem_iff_get.mp hw
    obtain ⟨tr, ht, hold⟩ := hv _ (by rw [hlk]; exact List.mem_singleton.mpr rfl) row hr
    rw [(key row tr hr ht).mp hold]
    exact List.get_mem T _ _
  · intro hm
    simp only [mockVerify]
    intro lu hlu row hr
    rw [hlk] at hlu
    rcases List.mem_singleton.mp hlu with rfl
    have hwmem := hm (W.get ⟨row, hr⟩) (List.get_mem W _ _)
    obtain ⟨⟨tr, ht⟩, heq⟩ := List.mem_iff_get.mp hwmem
    exact ⟨tr, ht, (key row tr hr ht).mpr heq.symm⟩

/-- C1 (counterexample): with `xs = [0, 1]` and `ys = [0, 1, 2]`, whose
lengths differ, `load` does not return an error — it succeeds, iterating
only the zipped common prefix — so the claim that a shape-mismatch error
is returned is false on the code. -/
theorem c1_shape_mismatch_counterexample :
    (([0, 1] : List U8).length ≠ ([0, 1, 2] : List U8).length) ∧
    (TableChip.load 257 circuitConfig [0, 1] [0, 1, 2]).isOk = true := by
  decide

/-- C1 (amended): calling `load` with `|xs| ≠ |ys|` succeeds, silently
truncating to the common prefix — it performs exactly the assignments for
the zipped pairs, `2 * min |xs| |ys|` table-cell assignments in total. -/
theorem c1_load_truncates (p : Nat) (cfg : TableConfig) (xs ys : List U8)
    (hne : xs.length ≠ ys.length) :
    TableChip.load p cfg xs ys = .ok (loadRows p cfg 0 (xs.zip ys)) ∧
    (loadRows p cfg 0 (xs.zip ys)).length = 2 * min xs.length ys.length := by
  refine ⟨rfl, ?_⟩
  rw [loadRows_length p cfg (xs.zip ys) 0, List.length_zip]

/-- C1 (witness for the amended claim): concrete mismatched lengths 2 and 3. -/
theorem c1_load_truncates_witness :
    TableChip.load 257 circuitConfig [0, 1] [0, 1, 2] =
      .ok (loadRows 257 circuitConfig 0 (([0, 1] : List U8).zip [0, 1, 2])) ∧
    (loadRows 257 circuitConfig 0 (([0, 1] : List U8).zip [0, 1, 2])).length =
      2 * min ([0, 1] : List U8).length ([0, 1, 2] : List U8).length :=
  c1_load_truncates 257 circuitConfig [0, 1] [0, 1, 2] (by decide)

/-- C2: during proving, if either optional byte is the unknown marker
`none`, the value thunk `add_row` builds for that cell computes
`Error::Synthesis`, and `add_row` returns that synthesis error to its
caller. -/
theorem c2_missing_witness_error (p : Nat) (chip : TableChip) (log : AdviceLog)
    (row : Nat) (x y : Option U8) (h : x = none ∨ y = none) :
    (byteValue p x = .error Error.Synthesis ∨
     byteValue p y = .error Error.Synthesis) ∧
    (TableChip.add_row p chip .proving log row x y).2 =
      .error Error.Synthesis := by
  rcases h with rfl | rfl
  · exact ⟨Or.inl rfl, rfl⟩
  · refine ⟨Or.inr rfl, ?_⟩
    cases x with
    | none => rfl
    | some a => rfl

/-- C2 (witness): unknown `x`, concrete `y = 5`, at row 3. -/
theorem c2_missing_witness_error_witness :
    (byteValue 257 (none : Option U8) = .error Error.Synthesis ∨
     byteValue 257 (some 5 : Option U8) = .error Error.Synthesis) ∧
    (TableChip.add_row 257 (TableChip.construct circuitConfig) .proving [] 3
      none (some 5)).2 = .error Error.Synthesis :=
  c2_missing_witness_error 257 (TableChip.construct circuitConfig) [] 3
    none (some 5) (Or.inl rfl)

/-- C3: for equal-length byte vectors, a successful `load` assigns, for each
`i < |xs|`, `F::from(xs[i])` into row `i` of `table_x` and `F::from(ys[i])`
into row `i` of `table_y`, and nothing else: an entry is in the produced
table-assignment log iff it is one of those. -/
theorem c3_load_assigns_exactly (p : Nat) (cfg : TableConfig) (xs ys : List U8)
    (hlen : xs.length = ys.length) :
    ∃ L, TableChip.load p cfg xs ys = .ok L ∧
      ∀ e, e ∈ L ↔ ∃ i, ∃ hx : i < xs.length, ∃ hy : i < ys.length,
        (e = (cfg.table.x, i, fFrom p (xs.get ⟨i, hx⟩).val) ∨
         e = (cfg.table.y, i, fFrom p (ys.get ⟨i, hy⟩).val)) := by
  refine ⟨loadRows p cfg 0 (xs.zip ys), rfl, ?_⟩
  intro e
  rw [mem_loadRows p cfg (xs.zip ys) 0 e]
  have hzl : (xs.zip ys).length = xs.length := by
    rw [List.length_zip, hlen, Nat.min_self]
  constructor
  · rintro ⟨i, hi, hcase⟩
    have hx : i < xs.length := by omega
    have hy : i < ys.length := by omega
    refine ⟨i, hx, hy, ?_⟩
    have hget : (xs.zip ys).get ⟨i, hi⟩ = (xs.get ⟨i, hx⟩, ys.get ⟨i, hy⟩) := by
      simp [List.get_eq_getElem, List.getElem_zip]
    rw [hget] at hcase
    simpa using hcase
  · rintro ⟨i, hx, hy, hcase⟩
    have hi : i < (xs.zip ys).length := by omega
    refine ⟨i, hi, ?_⟩
    have hget : (xs.zip ys).get ⟨i, hi⟩ = (xs.get ⟨i, hx⟩, ys.get ⟨i, hy⟩) := by
      simp [List.get_eq_getElem, List.getElem_zip]
    rw [hget]
    simpa using hcase

/-- C3 (witness): the test circuit's table, `xs = [0, 1, 2]`,
`ys = [1, 125, 126]`. -/
theorem c3_load_assigns_exactly_witness :
    ∃ L, TableChip.load 257 circuitConfig [0, 1, 2] [1, 125, 126] = .ok L ∧
      ∀ e, e ∈ L ↔ ∃ i, ∃ hx : i < ([0, 1, 2] : List U8).length,
        ∃ hy : i < ([1, 125, 126] : List U8).length,
        (e = (circuitConfig.table.x, i,
            fFrom 257 (([0, 1, 2] : List U8).get ⟨i, hx⟩).val) ∨
         e = (circuitConfig.table.y, i,
            fFrom 257 (([1, 125, 126] : List U8).get ⟨i, hy⟩).val)) :=
  c3_load_assigns_exactly 257 circuitConfig [0, 1, 2] [1, 125, 126] (by decide)

/-- C4: for any builder state and advice columns, `configure` allocates
exactly the next two fixed lookup-table column handles, registers exactly
one lookup argument consisting of the pairs `(input_x at current rotation,
table_x)` and `(input_y at current rotation, table_y)`, and returns the
configuration holding exactly these four column handles. -/
theorem c4_configure_effect (cs : ConstraintSystem)
    (input_x input_y : AdviceColumn) :
    (TableChip.configure cs input_x input_y).1 =
      { input := { x := input_x, y := input_y },
        table := { x := ⟨cs.numTableColumns⟩, y := ⟨cs.numTableColumns + 1⟩ } } ∧
    (TableChip.configure cs input_x input_y).2.numTableColumns =
      cs.numTableColumns + 2 ∧
    (TableChip.configure cs input_x input_y).2.lookups =
      cs.lookups ++
        [[(Expression.adviceQuery input_x rotationCur, ⟨cs.numTableColumns⟩),
          (Expression.adviceQuery input_y rotationCur, ⟨cs.numTableColumns + 1⟩)]] :=
  ⟨rfl, rfl, rfl⟩

/-- C5: a successful `add_row` during proving assigns `F::from(x)` into the
advice cell `(input_x, row)` and `F::from(y)` into `(input_y, row)`, the
columns being the ones stored in the chip's configuration. -/
theorem c5_add_row_assigns (p : Nat) (chip : TableChip) (log : AdviceLog)
    (row : Nat) (x y : U8) :
    TableChip.add_row p chip .proving log row (some x) (some y) =
      (log ++ [(chip.config.input.x, row, some (fFrom p x.val)),
               (chip.config.input.y, row, some (fFrom p y.val))], .ok ()) := by
  rw [add_row_some_eq]
  simp

/-- C6: in the chip's circuit (configure on a fresh builder, table loaded
via `load`, witness pairs assigned via `add_row` at consecutive rows during
proving), the lookup verification succeeds iff every witnessed pair is an
element of the loaded table of zipped pairs. The verification is the
modelled framework semantics of the single registered lookup argument; `p`
is the field characteristic, larger than any byte value. -/
theorem c6_membership_soundness (p : Nat) (xs ys : List U8)
    (W : List (U8 × U8)) (hp : 255 < p) (hlen : xs.length = ys.length) :
    (circuitAdvice p W).2 = .ok () ∧
    (mockVerify circuitCS (circuitTableLog p xs ys) (circuitAdvice p W).1
        W.length xs.length ↔ ∀ w ∈ W, w ∈ xs.zip ys) := by
  have hadv : circuitAdvice p W = (wLog p circuitConfig 0 W, .ok ()) := by
    simpa [circuitAdvice] using
      assignRowsFrom_eq p (TableChip.construct circuitConfig) W [] 0
  have htab : circuitTableLog p xs ys = loadRows p circuitConfig 0 (xs.zip ys) :=
    rfl
  have hzl : (xs.zip ys).length = xs.length := by
    rw [List.length_zip, hlen, Nat.min_self]
  rw [hadv, htab, ← hzl]
  exact ⟨rfl, mockVerify_circuit_iff p hp W (xs.zip ys)⟩

/-- C6 (witness): the test circuit's table and two of its witness rows. -/
theorem c6_membership_soundness_witness :
    (circuitAdvice 257 [(0, 1), (1, 125)]).2 = .ok () ∧
    (mockVerify circuitCS (circuitTableLog 257 [0, 1, 2] [1, 125, 126])
        (circuitAdvice 257 [(0, 1), (1, 125)]).1
        ([(0, 1), (1, 125)] : List (U8 × U8)).length
        ([0, 1, 2] : List U8).length ↔
      ∀ w ∈ ([(0, 1), (1, 125)] : List (U8 × U8)),
        w ∈ ([0, 1, 2] : List U8).zip [1, 125, 126]) :=
  c6_membership_soundness 257 [0, 1, 2] [1, 125, 126] [(0, 1), (1, 125)]
    (by decide) (by decide)

/-- C7: loading two empty byte vectors succeeds, performing zero table-cell
assignments — an empty table is a permitted input, not an error. -/
theorem c7_empty_load_ok (p : Nat) (cfg : TableConfig) :
    TableChip.load p cfg [] [] = .ok [] := rfl

/-- C8: a successful `add_row` during proving performs exactly two advice
assignments — `(input_x, row)` and `(input_y, row)` appended to the log —
and every other advice cell keeps its previous value; the configuration is
an immutable input and the fixed table log is not an input or output of
`add_row` at all, so neither can change. -/
theorem c8_add_row_frame (p : Nat) (chip : TableChip) (log : AdviceLog)
    (row : Nat) (x y : U8) :
    (TableChip.add_row p chip .proving log row (some x) (some y)).1 =
      log ++ [(chip.config.input.x, row, some (fFrom p x.val)),
              (chip.config.input.y, row, some (fFrom p y.val))] ∧
    ∀ (col : AdviceColumn) (r : Nat),
      ¬(r = row ∧ (col = chip.config.input.x ∨ col = chip.config.input.y)) →
      cellVal (TableChip.add_row p chip .proving log row (some x) (some y)).1
          col r =
        cellVal log col r := by
  constructor
  · rw [add_row_some_eq]
    simp
  · intro col r h
    have hx : ¬(chip.config.input.x = col ∧ row = r) := by
      rintro ⟨hc, hr⟩
      exact h ⟨hr.symm, Or.inl hc.symm⟩
    have hy : ¬(chip.config.input.y = col ∧ row = r) := by
      rintro ⟨hc, hr⟩
      exact h ⟨hr.symm, Or.inr hc.symm⟩
    rw [add_row_some_eq]
    show cellVal ((log ++ [(chip.config.input.x, row, some (fFrom p x.val))]) ++
      [(chip.config.input.y, row, some (fFrom p y.val))]) col r = cellVal log col r
    rw [cellVal_append_one chip.config.input.y row (some (fFrom p y.val)) col r hy
      (log ++ [(chip.config.input.x, row, some (fFrom p x.val))])]
    rw [cellVal_append_one chip.config.input.x row (some (fFrom p x.val)) col r hx
      log]

/-- C8 (witness): concrete call at row 0, checking the appended entries and
that the unrelated cell `(column 7, row 3)` is unchanged. -/
theorem c8_add_row_frame_witness :
    (TableChip.add_row 257 (TableChip.construct circuitConfig) .proving [] 0
      (some 1) (some 125)).1 =
      [] ++ [(circuitConfig.input.x, 0, some (fFrom 257 (1 : U8).val)),
             (circuitConfig.input.y, 0, some (fFrom 257 (125 : U8).val))] ∧
    cellVal (TableChip.add_row 257 (TableChip.construct circuitConfig) .proving
      [] 0 (some 1) (some 125)).1 ⟨7⟩ 3 = cellVal [] ⟨7⟩ 3 :=
  ⟨(c8_add_row_frame 257 (TableChip.construct circuitConfig) [] 0 1 125).1,
   (c8_add_row_frame 257 (TableChip.construct circuitConfig) [] 0 1 125).2
    ⟨7⟩ 3 (by decide)⟩

/-- C9: `load` is deterministic — its assignment sequence equals the
canonical list determined solely by the configuration and the two byte
vectors: for zipped pair `i`, first `table_x` then `table_y`, at row
offsets 0, 1, 2, ... in order, with values `F::from(xs[i])` and
`F::from(ys[i])`. Two invocations on the same inputs therefore perform the
identical sequence of table-cell assignments. -/
theorem c9_load_deterministic (p : Nat) (cfg : TableConfig) (xs ys : List U8) :
    TableChip.load p cfg xs ys = .ok (canonicalLoadLog p cfg xs ys) := by
  show Except.ok (loadRows p cfg 0 (xs.zip ys)) = _
  rw [loadRows_eq_enumFrom p cfg (xs.zip ys) 0]
  rfl

/-- C10: with `x` unknown during proving, the first advice assignment
surfaces `Error::Synthesis` and `add_row` returns it immediately: the
region log comes back unchanged, so the `y` assignment into
`(input_y, row)` is never attempted. -/
theorem c10_short_circuit_on_unknown_x (p : Nat) (chip : TableChip)
    (log : AdviceLog) (row : Nat) (y : Option U8) :
    TableChip.add_row p chip .proving log row none y =
      (log, .error Error.Synthesis) := rfl

end LookupChip
